import Mathlib

/-!
Verification development for the HPC matrix-operations kernel
(`src/matrix_operations_mpi.cpp`).

Shallow embedding: matrices are total functions `ℕ → ℕ → ℚ` (the C code
works on flat row-major `double*` buffers of dimension `n`; only indices
below `n` are ever observed, and machine doubles are modelled by exact
rationals).  Loops writing disjoint cells become pointwise function
updates or folds over the index lists the loops traverse; the sequential
column loop of Gauss-Jordan becomes fuel recursion with an explicit
early-return flag; MPI collectives become explicit merge functions over
the family of per-rank local states.
-/

/-- A matrix buffer: row-major `double*` modelled as a total function. -/
abbrev Mat : Type := ℕ → ℕ → ℚ

/-- Build a matrix from a nested list literal (entries outside the
literal read as 0); used only for concrete test inputs. -/
def matOfLists (L : List (List ℚ)) : Mat :=
  fun i j => ((L.getD i []).getD j 0)

/-! ### Row partitioning rule

`int rows_per_proc = n / size; int start_row = rank * rows_per_proc;
 int end_row = (rank == size - 1) ? n : start_row + rows_per_proc;`
(lines 79–81, 124, 161–162, 188–190 of the source). -/

def rows_per_proc (n size : ℕ) : ℕ := n / size

def start_row (n size rank : ℕ) : ℕ := rank * rows_per_proc n size

def end_row (n size rank : ℕ) : ℕ :=
  if rank = size - 1 then n else start_row n size rank + rows_per_proc n size

/-- The set of row indices assigned to `rank`. -/
def rowPartition (n size rank : ℕ) : Finset ℕ :=
  Finset.Ico (start_row n size rank) (end_row n size rank)

/-! ### Pivot search (lines 127–136)

`int pivot_row = col; double max_val = fabs(work[col*n+col]);
 for (int i = col+1; i < n; i++) if (fabs(work[i*n+col]) > max_val) ...`
The loop is a recursion on the number of rows scanned after row `col`;
`pivotRec work col k` is the `(pivot_row, max_val)` state after scanning
rows `col+1 … col+k`. -/

def pivotRec (work : Mat) (col : ℕ) : ℕ → ℕ × ℚ
  | 0 => (col, |work col col|)
  | k + 1 =>
      let st := pivotRec work col k
      let i := col + k + 1
      if |work i col| > st.2 then (i, |work i col|) else st

/-- The selected pivot row for column `col` of an `n × n` working matrix. -/
def findPivot (work : Mat) (n col : ℕ) : ℕ :=
  (pivotRec work col (n - (col + 1))).1

/-! ### Multiplication kernel (lines 76–109)

The local computation is the doubly-nested loop over the rank's own row
range; each iteration writes one output cell `C[i][j]` with the
sequential dot product `sum += A[i*n+k] * B[k*n+j]`. -/

/-- `double sum = 0.0; for (int k = 0; k < n; k++) sum += A[i*n+k]*B[k*n+j];` -/
def dotProd (A B : Mat) (i j n : ℕ) : ℚ :=
  (List.range n).foldl (fun acc k => acc + A i k * B k j) 0

/-- The mutable buffers visible to `matrix_multiply_mpi` on one process. -/
structure MulState where
  A : Mat
  B : Mat
  C : Mat

/-- The `(i, j)` cell indices written by the local loop, in loop order. -/
def rowColPairs (s e n : ℕ) : List (ℕ × ℕ) :=
  (List.range' s (e - s)).flatMap (fun i => (List.range n).map (fun j => (i, j)))

/-- One iteration of the inner loop body: `C[i*n+j] = sum`. -/
def writeCell (n : ℕ) (st : MulState) (ij : ℕ × ℕ) : MulState :=
  { st with
    C := fun i' j' =>
      if i' = ij.1 ∧ j' = ij.2 then dotProd st.A st.B ij.1 ij.2 n
      else st.C i' j' }

/-- The local computation phase of `matrix_multiply_mpi` on one rank:
the nested `i, j` loops over the rank's own partition, each writing one
cell of `C`. -/
def matrix_multiply_local (st : MulState) (rank size n : ℕ) : MulState :=
  (rowColPairs (start_row n size rank) (end_row n size rank) n).foldl
    (writeCell n) st

/-- The merge phase of `matrix_multiply_mpi` (lines 96–104): rank 0
receives, for `p = 1 … size-1` in order, the rows
`[p_start, p_end)` computed by rank `p` and stores them into its own
`C` buffer. -/
def mergeToRoot (size n : ℕ) (localC : ℕ → Mat) : Mat :=
  (List.range' 1 (size - 1)).foldl
    (fun C p => fun i j =>
      if start_row n size p ≤ i ∧ i < end_row n size p then localC p i j
      else C i j)
    (localC 0)

/-- The whole of `matrix_multiply_mpi` as observed on rank 0 after the
merge phase: every rank runs the local phase on its own partition (with
its own initial garbage `C` buffer `Cinit p`), then rank 0 collects the
partitions.  `A` and `B` hold the same data on every rank. -/
def matrix_multiply_mpi (A B : Mat) (Cinit : ℕ → Mat) (size n : ℕ) : Mat :=
  mergeToRoot size n
    (fun p => (matrix_multiply_local ⟨A, B, Cinit p⟩ p size n).C)

/-! ### Gauss-Jordan inversion (lines 112–183) -/

/-- `initialize_identity` (lines 66–73): sets the `n × n` block of the
buffer to the identity, leaving cells outside the block untouched. -/
def initialize_identity (M : Mat) (n : ℕ) : Mat :=
  fun i j =>
    if i < n ∧ j < n then (if i = j then 1 else 0) else M i j

/-- Row swap of rows `r1` and `r2` (lines 139–144; a no-op when
`r1 = r2`, matching the guarded swap in the source). -/
def swapRows (M : Mat) (r1 r2 : ℕ) : Mat :=
  fun i j =>
    if i = r1 then M r2 j else if i = r2 then M r1 j else M i j

/-- Scaling of row `r` by `1 / p` (lines 154–158). -/
def scaleRow (M : Mat) (r : ℕ) (p : ℚ) : Mat :=
  fun i j => if i = r then M i j / p else M i j

/-- Elimination of column `col` in the working matrix over the row range
`[s, e)` (lines 164–173): `factor = work[i*n+col]` is read before row
`i` is updated, so every read on the right is of the pre-update matrix. -/
def elimWork (W : Mat) (col s e : ℕ) : Mat :=
  fun i j =>
    if s ≤ i ∧ i < e ∧ i ≠ col then W i j - W i col * W col j else W i j

/-- Elimination applied to the inverse accumulator, with the factor
taken from the working matrix: `A_inv[i*n+j] -= factor * A_inv[col*n+j]`
where `factor = work[i*n+col]`. -/
def elimInv (W V : Mat) (col s e : ℕ) : Mat :=
  fun i j =>
    if s ≤ i ∧ i < e ∧ i ≠ col then V i j - W i col * V col j else V i j

/-- The buffers visible to `matrix_inverse_mpi` on one process: the
input `A` (read only to seed `work`), the freshly allocated working
matrix, and the caller's inverse-accumulator buffer. -/
structure GJState where
  A : Mat
  work : Mat
  ainv : Mat

/-- The singularity threshold `1e-10` of line 148. -/
def singularEps : ℚ := 1 / 10 ^ 10

/-- One iteration of the pivot-column loop (lines 126–180) as executed
by one rank, all-gather excluded: find the pivot, swap, test
singularity (`false` = early return, with the swap already applied to
both buffers), scale, and eliminate over the rank's own row range. -/
def gjStep (rank size n : ℕ) (st : GJState) (col : ℕ) : Bool × GJState :=
  let p := findPivot st.work n col
  let W1 := swapRows st.work col p
  let V1 := swapRows st.ainv col p
  let piv := W1 col col
  if |piv| < singularEps then
    (false, ⟨st.A, W1, V1⟩)
  else
    let W2 := scaleRow W1 col piv
    let V2 := scaleRow V1 col piv
    let s := start_row n size rank
    let e := end_row n size rank
    (true, ⟨st.A, elimWork W2 col s e, elimInv W2 V2 col s e⟩)

/-- The column loop with early return: `gjLoop rank size n col fuel st`
runs `gjStep` for columns `col, col+1, …` for `fuel` iterations,
stopping with flag `false` at the first singular pivot and returning
the buffers exactly as they were at that return. -/
def gjLoop (rank size n : ℕ) : ℕ → ℕ → GJState → Bool × GJState
  | _, 0, st => (true, st)
  | col, fuel + 1, st =>
      let r := gjStep rank size n st col
      if r.1 then gjLoop rank size n (col + 1) fuel r.2 else (false, r.2)

/-- `matrix_inverse_mpi` as executed by one rank with the all-gather a
no-op (exact for `size = 1`; the multi-rank synchronization is modelled
separately by `allgatherInPlace`): copy `A` into the fresh working
buffer, overwrite the caller's buffer with the identity, and run the
column loop over all `n` columns. -/
def matrix_inverse_mpi (A Vbuf : Mat) (rank size n : ℕ) : Bool × GJState :=
  gjLoop rank size n 0 n ⟨A, fun i j => A i j, initialize_identity Vbuf n⟩

/-- The in-place `MPI_Allgather` with receive count `n * rows_per_proc`
(lines 176–179): block `b` of `rows_per_proc` rows is taken from rank
`b`'s buffer; rows at index `≥ size * rows_per_proc` (the remainder
rows when `size` does not divide `n`) are not exchanged, so each rank
keeps its own local values there. -/
def allgatherInPlace (size rpp : ℕ) (locals : ℕ → Mat) (r : ℕ) : Mat :=
  fun i j =>
    if i < size * rpp then locals (i / rpp) i j else locals r i j

/-! ### Bottleneck analyzer (lines 224–244) -/

/-- Labels of the metric lines the analyzer writes. -/
inductive MetricLabel where
  | processors
  | avgComputationTime
  | avgCommunicationTime
  | communicationOverhead
deriving DecidableEq

/-- One line of the bottleneck-analysis report block. -/
inductive LogLine where
  | field (label : MetricLabel) (value : ℚ)
  | sep
deriving DecidableEq

/-- `MPI_Reduce(..., MPI_SUM, 0, ...)`: the sum of the per-process
values, delivered to the designated root. -/
def mpiReduceSum (xs : List ℚ) : ℚ := xs.foldl (fun a x => a + x) 0

/-- `analyze_communication`: reduce the per-process computation and
communication times to the root, average by process count, derive the
overhead percentage, and return the report block the root appends. -/
def analyze_communication (size : ℕ) (comps comms : List ℚ) : List LogLine :=
  let total_comp := mpiReduceSum comps
  let total_comm := mpiReduceSum comms
  let avg_comp := total_comp / (size : ℚ)
  let avg_comm := total_comm / (size : ℚ)
  let overhead := (avg_comm / (avg_comp + avg_comm)) * 100
  [LogLine.field MetricLabel.processors (size : ℚ),
   LogLine.field MetricLabel.avgComputationTime avg_comp,
   LogLine.field MetricLabel.avgCommunicationTime avg_comm,
   LogLine.field MetricLabel.communicationOverhead overhead,
   LogLine.sep]

/-- Appending the block to the (append-only) report file. -/
def analyze_log (log : List LogLine) (size : ℕ) (comps comms : List ℚ) :
    List LogLine :=
  log ++ analyze_communication size comps comms

/-- Whether a report line is a metric field. -/
def isFieldLine : LogLine → Bool
  | LogLine.field _ _ => true
  | LogLine.sep => false

/-- The value carried by the first report line with the given label. -/
def fieldValue (block : List LogLine) (l : MetricLabel) : Option ℚ :=
  match block with
  | [] => none
  | LogLine.field l' v :: rest =>
      if l' = l then some v else fieldValue rest l
  | LogLine.sep :: rest => fieldValue rest l

/-! ### Distributed save (lines 186–202) -/

/-- `save_matrix_distributed`: the artifact written by `rank` is the
file `filename_part<rank>.dat` (modelled by the rank number, distinct
per rank) holding the rows of the rank's own partition in ascending
order, each row as `n` consecutive values. -/
def save_matrix_distributed (matrix : Mat) (n rank size : ℕ) :
    ℕ × List ℚ :=
  let s := start_row n size rank
  let e := end_row n size rank
  (rank,
   (List.range' s (e - s)).flatMap
     (fun i => (List.range n).map (fun j => matrix i j)))

/-! ### Concrete fixtures used in witnesses and counterexamples -/

/-- A `3 × 3` input whose first elimination step changes row 2. -/
def mat3 : Mat := matOfLists [[1, 0, 0], [0, 1, 0], [1, 0, 1]]

/-- The shared pre-iteration state on every rank for `mat3` (fresh
working copy plus identity seed over a garbage buffer). -/
def gjSt3 : GJState := ⟨mat3, mat3, initialize_identity (fun _ _ => 7) 3⟩

/-- A `4 × 4` input for the evenly-divisible synchronization witness. -/
def mat4 : Mat :=
  matOfLists [[2, 0, 0, 0], [0, 1, 0, 0], [0, 0, 1, 0], [0, 0, 0, 1]]

/-- The shared pre-iteration state on every rank for `mat4`. -/
def gjSt4 : GJState := ⟨mat4, mat4, initialize_identity (fun _ _ => 7) 4⟩

/-! ## Theorems -/

/-! ### The partitioning rule (claims C4, C5) -/

theorem end_row_le (n size rank : ℕ) (hr : rank < size) :
    end_row n size rank ≤ n := by
  unfold end_row start_row rows_per_proc
  by_cases h : rank = size - 1
  · simp [h]
  · rw [if_neg h]
    have h1 : rank + 1 ≤ size := hr
    calc rank * (n / size) + n / size = (rank + 1) * (n / size) := by ring
      _ ≤ size * (n / size) := Nat.mul_le_mul_right _ h1
      _ = n / size * size := Nat.mul_comm _ _
      _ ≤ n := Nat.div_mul_le_self n size

theorem end_row_le_start_row (n size r r' : ℕ) (hr' : r' < size) (h : r < r') :
    end_row n size r ≤ start_row n size r' := by
  have hne : r ≠ size - 1 := by omega
  unfold end_row start_row rows_per_proc
  rw [if_neg hne]
  calc r * (n / size) + n / size = (r + 1) * (n / size) := by ring
    _ ≤ r' * (n / size) := Nat.mul_le_mul_right _ h

theorem mem_rowPartition (n size rank i : ℕ) :
    i ∈ rowPartition n size rank ↔
      start_row n size rank ≤ i ∧ i < end_row n size rank := Finset.mem_Ico

theorem exists_owner (n size i : ℕ) (hs : 0 < size) (hi : i < n) :
    ∃ r, r < size ∧ i ∈ rowPartition n size r := by
  by_cases hz : n / size = 0
  · refine ⟨size - 1, by omega, ?_⟩
    simp only [rowPartition, start_row, end_row, rows_per_proc,
      Finset.mem_Ico, if_true]
    rw [hz]
    omega
  · have hpos : 0 < n / size := Nat.pos_of_ne_zero hz
    by_cases hq : i / (n / size) < size - 1
    · refine ⟨i / (n / size), lt_of_lt_of_le hq (Nat.sub_le size 1), ?_⟩
      simp only [rowPartition, start_row, end_row, rows_per_proc,
        Finset.mem_Ico]
      rw [if_neg (Nat.ne_of_lt hq)]
      exact ⟨Nat.div_mul_le_self i _, Nat.lt_div_mul_add hpos⟩
    · refine ⟨size - 1, by omega, ?_⟩
      simp only [rowPartition, start_row, end_row, rows_per_proc,
        Finset.mem_Ico, if_true]
      exact ⟨le_trans (Nat.mul_le_mul_right _ (Nat.le_of_not_lt hq))
        (Nat.div_mul_le_self i _), hi⟩

theorem rowPartition_pairwise_disjoint (n size r r' : ℕ)
    (hr : r < size) (hr' : r' < size) (hne : r ≠ r') :
    Disjoint (rowPartition n size r) (rowPartition n size r') := by
  rw [Finset.disjoint_left]
  intro i hi hi'
  rw [mem_rowPartition] at hi hi'
  rcases Nat.lt_or_ge r r' with h | h
  · have := end_row_le_start_row n size r r' hr' h
    omega
  · have hlt : r' < r := by omega
    have := end_row_le_start_row n size r' r hr hlt
    omega

/-- C4: for every dimension `n` and process count `size` (dividing `n`
or not, larger than `n` or not), the row partitions given by the rule
`rows_per_proc = n / size`, `start = rank * rows_per_proc`,
`end = (rank == size-1 ? n : start + rows_per_proc)` are pairwise
disjoint, their union is exactly `[0, n)`, and the last partition is
the whole tail `[(size-1) * rows_per_proc, n)`, i.e. all remainder rows
go to the last process. -/
theorem partition_disjoint_cover (n size : ℕ) (hs : 0 < size) :
    (∀ r r', r < size → r' < size → r ≠ r' →
        Disjoint (rowPartition n size r) (rowPartition n size r')) ∧
    (Finset.range size).biUnion (fun r => rowPartition n size r) =
      Finset.range n ∧
    rowPartition n size (size - 1) =
      Finset.Ico ((size - 1) * rows_per_proc n size) n := by
  refine ⟨fun r r' hr hr' hne => rowPartition_pairwise_disjoint n size r r' hr hr' hne, ?_, ?_⟩
  · ext i
    rw [Finset.mem_biUnion]
    constructor
    · rintro ⟨r, hr, hi⟩
      rw [Finset.mem_range] at hr
      rw [mem_rowPartition] at hi
      have := end_row_le n size r hr
      rw [Finset.mem_range]
      omega
    · intro hi
      rw [Finset.mem_range] at hi
      obtain ⟨r, hr, hmem⟩ := exists_owner n size i hs hi
      exact ⟨r, Finset.mem_range.mpr hr, hmem⟩
  · unfold rowPartition start_row end_row
    rw [if_pos rfl]

/-- C4 witness: the partition properties at `n = 5`, `size = 3`. -/
theorem partition_disjoint_cover_witness :
    0 < 3 ∧
    ((∀ r r', r < 3 → r' < 3 → r ≠ r' →
        Disjoint (rowPartition 5 3 r) (rowPartition 5 3 r')) ∧
     (Finset.range 3).biUnion (fun r => rowPartition 5 3 r) =
       Finset.range 5 ∧
     rowPartition 5 3 (3 - 1) =
       Finset.Ico ((3 - 1) * rows_per_proc 5 3) 5) :=
  ⟨by decide, partition_disjoint_cover 5 3 (by decide)⟩

/-- C5 counterexample: for `n = 5`, `size = 3` the last partition
`[2, 5)` has 3 rows while partition 0 has a single row, so two
partitions differ in size by more than one row. -/
theorem partition_size_gap :
    ¬ ((rowPartition 5 3 2).card ≤ (rowPartition 5 3 0).card + 1) := by
  decide

/-- C5 amended: every partition except the last has exactly
`n / size` rows, and the last has `n / size + n % size` rows; hence
sizes differ by at most one exactly when `n % size ≤ 1`, and in general
the last partition exceeds the others by the whole remainder
`n % size` (up to `size - 1` rows). -/
theorem partition_sizes (n size : ℕ) (hs : 0 < size) :
    (∀ r, r < size - 1 →
        (rowPartition n size r).card = rows_per_proc n size) ∧
    (rowPartition n size (size - 1)).card =
      rows_per_proc n size + n % size := by
  obtain ⟨s', rfl⟩ : ∃ s', size = s' + 1 :=
    ⟨size - 1, (Nat.succ_pred_eq_of_pos hs).symm⟩
  constructor
  · intro r hr
    simp only [rowPartition, start_row, end_row, rows_per_proc]
    rw [if_neg (by omega), Nat.card_Ico]
    exact Nat.add_sub_cancel_left _ _
  · simp only [rowPartition, start_row, end_row, rows_per_proc,
      Nat.add_sub_cancel, if_true]
    rw [Nat.card_Ico]
    have h1 : (s' + 1) * (n / (s' + 1)) + n % (s' + 1) = n :=
      Nat.div_add_mod n (s' + 1)
    generalize hQ : n / (s' + 1) = q at h1 ⊢
    generalize hM : n % (s' + 1) = m at h1 ⊢
    have h2 : s' * q + q = (s' + 1) * q := by ring
    omega

/-! ### Pivot selection (claim C6) -/

theorem pivotRec_invariant (work : Mat) (col k : ℕ) :
    (pivotRec work col k).2 = |work (pivotRec work col k).1 col| ∧
    col ≤ (pivotRec work col k).1 ∧
    (pivotRec work col k).1 ≤ col + k ∧
    (∀ i, col ≤ i → i ≤ col + k →
        |work i col| ≤ (pivotRec work col k).2) ∧
    (∀ i, col ≤ i → i < (pivotRec work col k).1 →
        |work i col| < (pivotRec work col k).2) := by
  induction k with
  | zero =>
      refine ⟨rfl, le_refl _, by simp [pivotRec], ?_, ?_⟩
      · intro i h1 h2
        have hieq : i = col := by omega
        subst hieq
        simp [pivotRec]
      · intro i h1 h2
        simp only [pivotRec] at h2
        omega
  | succ k ih =>
      obtain ⟨ih1, ih2, ih3, ih4, ih5⟩ := ih
      by_cases h : |work (col + k + 1) col| > (pivotRec work col k).2
      · have hstep : pivotRec work col (k + 1) =
            (col + k + 1, |work (col + k + 1) col|) := by
          simp only [pivotRec]
          rw [if_pos h]
        rw [hstep]
        refine ⟨rfl, by omega, by omega, ?_, ?_⟩
        · intro i hi1 hi2
          rcases Nat.lt_or_ge i (col + k + 1) with hlt | hge
          · exact le_of_lt (lt_of_le_of_lt (ih4 i hi1 (by omega)) h)
          · have : i = col + k + 1 := by omega
            subst this
            exact le_refl _
        · intro i hi1 hi2
          exact lt_of_le_of_lt (ih4 i hi1 (by omega)) h
      · have hstep : pivotRec work col (k + 1) = pivotRec work col k := by
          simp only [pivotRec]
          rw [if_neg h]
        rw [hstep]
        refine ⟨ih1, ih2, by omega, ?_, ih5⟩
        intro i hi1 hi2
        rcases Nat.lt_or_ge i (col + k + 1) with hlt | hge
        · exact ih4 i hi1 (by omega)
        · have : i = col + k + 1 := by omega
          subst this
          exact le_of_not_lt h

/-- C6: the pivot selected for column `col` is a row index in
`[col, n)` carrying the largest absolute value of column `col`, and
among rows of equal maximal absolute value the scan keeps the first one
encountered, i.e. every row strictly below the selected one has a
strictly smaller absolute value. -/
theorem findPivot_spec (work : Mat) (n col : ℕ) (h : col < n) :
    col ≤ findPivot work n col ∧ findPivot work n col < n ∧
    (∀ i, col ≤ i → i < n →
        |work i col| ≤ |work (findPivot work n col) col|) ∧
    (∀ i, col ≤ i → i < findPivot work n col →
        |work i col| < |work (findPivot work n col) col|) := by
  obtain ⟨h1, h2, h3, h4, h5⟩ := pivotRec_invariant work col (n - (col + 1))
  unfold findPivot
  refine ⟨h2, by omega, ?_, ?_⟩
  · intro i hi1 hi2
    have hb := h4 i hi1 (by omega)
    rw [h1] at hb
    exact hb
  · intro i hi1 hi2
    have hb := h5 i hi1 hi2
    rw [h1] at hb
    exact hb

/-- C6 witness: a column with a tie in absolute value (rows 0 and 1 of
column 0 both have absolute value 2); the properties at `n = 3`,
`col = 0` hold for the scan's choice. -/
theorem findPivot_spec_witness :
    (0 : ℕ) < 3 ∧
    (0 ≤ findPivot (matOfLists [[2], [-2], [1]]) 3 0 ∧
     findPivot (matOfLists [[2], [-2], [1]]) 3 0 < 3 ∧
     (∀ i, 0 ≤ i → i < 3 →
         |matOfLists [[2], [-2], [1]] i 0| ≤
           |matOfLists [[2], [-2], [1]]
             (findPivot (matOfLists [[2], [-2], [1]]) 3 0) 0|) ∧
     (∀ i, 0 ≤ i → i < findPivot (matOfLists [[2], [-2], [1]]) 3 0 →
         |matOfLists [[2], [-2], [1]] i 0| <
           |matOfLists [[2], [-2], [1]]
             (findPivot (matOfLists [[2], [-2], [1]]) 3 0) 0|)) :=
  ⟨by decide, findPivot_spec (matOfLists [[2], [-2], [1]]) 3 0 (by decide)⟩

/-! ### Multiplication (claim C1) -/

theorem dotProd_eq_sum (A B : Mat) (i j n : ℕ) :
    dotProd A B i j n = ∑ k ∈ Finset.range n, A i k * B k j := by
  induction n with
  | zero => rfl
  | succ n ih =>
      unfold dotProd at ih ⊢
      rw [List.range_succ, List.foldl_append, ih, Finset.sum_range_succ]
      rfl

theorem foldl_writeCell_A (n : ℕ) (L : List (ℕ × ℕ)) (st : MulState) :
    (L.foldl (writeCell n) st).A = st.A := by
  induction L generalizing st with
  | nil => rfl
  | cons p L ih => rw [List.foldl_cons, ih]; rfl

theorem foldl_writeCell_B (n : ℕ) (L : List (ℕ × ℕ)) (st : MulState) :
    (L.foldl (writeCell n) st).B = st.B := by
  induction L generalizing st with
  | nil => rfl
  | cons p L ih => rw [List.foldl_cons, ih]; rfl

theorem foldl_writeCell_C (n : ℕ) (L : List (ℕ × ℕ)) (st : MulState)
    (i j : ℕ) :
    (L.foldl (writeCell n) st).C i j =
      if (i, j) ∈ L then dotProd st.A st.B i j n else st.C i j := by
  induction L generalizing st with
  | nil => simp
  | cons p L ih =>
      obtain ⟨a, b⟩ := p
      rw [List.foldl_cons, ih]
      have hA : (writeCell n st (a, b)).A = st.A := rfl
      have hB : (writeCell n st (a, b)).B = st.B := rfl
      rw [hA, hB]
      by_cases hmem : (i, j) ∈ L
      · rw [if_pos hmem, if_pos (List.mem_cons_of_mem (a, b) hmem)]
      · rw [if_neg hmem]
        by_cases hp : i = a ∧ j = b
        · obtain ⟨rfl, rfl⟩ := hp
          rw [if_pos (List.mem_cons_self _ _)]
          show (if i = i ∧ j = j then dotProd st.A st.B i j n
            else st.C i j) = _
          rw [if_pos ⟨rfl, rfl⟩]
        · have hne : (i, j) ∉ [(a, b)] := by
            simp only [List.mem_singleton, Prod.mk.injEq]
            exact hp
          rw [if_neg (by
            intro hc
            rcases List.mem_cons.mp hc with h | h
            · rw [Prod.mk.injEq] at h
              exact hp h
            · exact hmem h)]
          show (if i = a ∧ j = b then dotProd st.A st.B a b n
            else st.C i j) = st.C i j
          rw [if_neg hp]

theorem mem_rowColPairs (s e n i j : ℕ) :
    (i, j) ∈ rowColPairs s e n ↔ s ≤ i ∧ i < e ∧ j < n := by
  simp only [rowColPairs, List.mem_flatMap, List.mem_map, List.mem_range,
    List.mem_range'_1, Prod.mk.injEq]
  constructor
  · rintro ⟨a, ⟨ha1, ha2⟩, b, hb, h1, h2⟩
    subst h1; subst h2
    exact ⟨ha1, by omega, hb⟩
  · rintro ⟨h1, h2, h3⟩
    exact ⟨i, ⟨h1, by omega⟩, j, h3, rfl, rfl⟩

theorem matrix_multiply_local_C (A B C0 : Mat) (rank size n i j : ℕ) :
    (matrix_multiply_local ⟨A, B, C0⟩ rank size n).C i j =
      if start_row n size rank ≤ i ∧ i < end_row n size rank ∧ j < n
      then dotProd A B i j n else C0 i j := by
  unfold matrix_multiply_local
  rw [foldl_writeCell_C]
  simp only [mem_rowColPairs]

theorem mergeToRoot_apply (size n : ℕ) (localC : ℕ → Mat) (i j : ℕ) :
    mergeToRoot size n localC i j =
      (List.range' 1 (size - 1)).foldl
        (fun v p =>
          if start_row n size p ≤ i ∧ i < end_row n size p
          then localC p i j else v)
        (localC 0 i j) := by
  unfold mergeToRoot
  generalize localC 0 = C0
  generalize List.range' 1 (size - 1) = L
  induction L generalizing C0 with
  | nil => rfl
  | cons p L ih =>
      rw [List.foldl_cons, List.foldl_cons]
      exact ih _

theorem owner_foldl_none (n size i j : ℕ) (localC : ℕ → Mat)
    (L : List ℕ) (v : ℚ)
    (h : ∀ p ∈ L, i ∉ rowPartition n size p) :
    L.foldl
      (fun v p =>
        if start_row n size p ≤ i ∧ i < end_row n size p
        then localC p i j else v) v = v := by
  induction L generalizing v with
  | nil => rfl
  | cons q L ih =>
      rw [List.foldl_cons]
      rw [if_neg (by
        intro hc
        exact h q (List.mem_cons_self _ _)
          ((mem_rowPartition n size q i).mpr hc))]
      exact ih v (fun p hp => h p (List.mem_cons_of_mem q hp))

theorem owner_foldl_mem (n size i j : ℕ) (localC : ℕ → Mat)
    (L : List ℕ) (v : ℚ) (q : ℕ) (hnd : L.Nodup) (hq : q ∈ L)
    (hqmem : i ∈ rowPartition n size q)
    (huniq : ∀ p ∈ L, p ≠ q → i ∉ rowPartition n size p) :
    L.foldl
      (fun v p =>
        if start_row n size p ≤ i ∧ i < end_row n size p
        then localC p i j else v) v = localC q i j := by
  induction L generalizing v with
  | nil => cases hq
  | cons a L ih =>
      rw [List.foldl_cons]
      rcases List.nodup_cons.mp hnd with ⟨hna, hndL⟩
      by_cases haq : a = q
      · subst haq
        rw [if_pos ((mem_rowPartition n size a i).mp hqmem)]
        exact owner_foldl_none n size i j localC L _
          (fun p hp => huniq p (List.mem_cons_of_mem a hp)
            (fun hpq => hna (hpq ▸ hp)))
      · rw [if_neg (by
          intro hc
          exact huniq a (List.mem_cons_self _ _) haq
            ((mem_rowPartition n size a i).mpr hc))]
        have hqL : q ∈ L := by
          rcases List.mem_cons.mp hq with h | h
          · exact absurd h.symm haq
          · exact h
        exact ih v hndL hqL
          (fun p hp => huniq p (List.mem_cons_of_mem a hp))

theorem mergeToRoot_eq_owner (size n : ℕ) (localC : ℕ → Mat)
    (r i j : ℕ) (hs : 0 < size) (hr : r < size)
    (hmem : i ∈ rowPartition n size r) :
    mergeToRoot size n localC i j = localC r i j := by
  rw [mergeToRoot_apply]
  have hdisj : ∀ p, p ∈ List.range' 1 (size - 1) → p ≠ r →
      i ∉ rowPartition n size p := by
    intro p hp hpr
    rw [List.mem_range'_1] at hp
    have hplt : p < size := by omega
    have := rowPartition_pairwise_disjoint n size r p hr hplt
      (fun h => hpr h.symm)
    exact Finset.disjoint_left.mp this hmem
  rcases Nat.eq_zero_or_pos r with hr0 | hrpos
  · subst hr0
    exact owner_foldl_none n size i j localC _ _
      (fun p hp => hdisj p hp (by
        rw [List.mem_range'_1] at hp
        omega))
  · exact owner_foldl_mem n size i j localC _ _ r
      (List.nodup_range' 1 (size - 1))
      (by rw [List.mem_range'_1]; omega)
      hmem hdisj

/-- C1: after the merge phase of `matrix_multiply_mpi`, the
coordinator (rank 0) holds a complete result in which every entry is
the mathematical matrix product, for every process count and every
initial content of the per-rank output buffers — i.e. the result is
independent of the decomposition used to produce it. -/
theorem matrix_multiply_mpi_correct (A B : Mat) (Cinit : ℕ → Mat)
    (size n : ℕ) (hs : 0 < size) (i j : ℕ) (hi : i < n) (hj : j < n) :
    matrix_multiply_mpi A B Cinit size n i j =
      ∑ k ∈ Finset.range n, A i k * B k j := by
  obtain ⟨r, hr, hmem⟩ := exists_owner n size i hs hi
  unfold matrix_multiply_mpi
  rw [mergeToRoot_eq_owner size n _ r i j hs hr hmem]
  rw [matrix_multiply_local_C]
  rw [mem_rowPartition] at hmem
  rw [if_pos ⟨hmem.1, hmem.2, hj⟩]
  exact dotProd_eq_sum A B i j n

/-- C1 witness: a concrete `2 × 2` product distributed over two
processes, with nonzero garbage in the initial output buffers. -/
theorem matrix_multiply_mpi_correct_witness :
    0 < 2 ∧ (0 : ℕ) < 2 ∧ (1 : ℕ) < 2 ∧
    matrix_multiply_mpi (matOfLists [[1, 2], [3, 4]])
        (matOfLists [[5, 6], [7, 8]]) (fun _ _ _ => 99) 2 2 0 1 =
      ∑ k ∈ Finset.range 2,
        matOfLists [[1, 2], [3, 4]] 0 k * matOfLists [[5, 6], [7, 8]] k 1 :=
  ⟨by decide, by decide, by decide,
    matrix_multiply_mpi_correct (matOfLists [[1, 2], [3, 4]])
      (matOfLists [[5, 6], [7, 8]]) (fun _ _ _ => 99) 2 2 (by decide)
      0 1 (by decide) (by decide)⟩

/-! ### Gauss-Jordan: frame effects and the singular early return
(claims C10, C3) -/

theorem gjStep_preserves_A (rank size n : ℕ) (st : GJState) (col : ℕ) :
    ((gjStep rank size n st col).2).A = st.A := by
  simp only [gjStep]
  split
  · rfl
  · rfl

theorem gjLoop_preserves_A (rank size n : ℕ) :
    ∀ (fuel col : ℕ) (st : GJState),
      ((gjLoop rank size n col fuel st).2).A = st.A := by
  intro fuel
  induction fuel with
  | zero => intro col st; rfl
  | succ fuel ih =>
      intro col st
      simp only [gjLoop]
      by_cases h : (gjStep rank size n st col).1
      · rw [if_pos h, ih, gjStep_preserves_A]
      · rw [if_neg h]
        exact gjStep_preserves_A rank size n st col

/-- C10: neither operation mutates its input matrices.  The local
multiplication loop writes only the `C` buffer, leaving `A` and `B`
untouched, and `matrix_inverse_mpi` works on a fresh copy of `A`,
leaving `A` unchanged on every path — including the early return on a
singular pivot (the returned flag may be `true` or `false`; the
statement covers both). -/
theorem operations_preserve_inputs :
    (∀ (st : MulState) (rank size n : ℕ),
        (matrix_multiply_local st rank size n).A = st.A ∧
        (matrix_multiply_local st rank size n).B = st.B) ∧
    (∀ (A Vbuf : Mat) (rank size n : ℕ),
        ((matrix_inverse_mpi A Vbuf rank size n).2).A = A) := by
  constructor
  · intro st rank size n
    exact ⟨foldl_writeCell_A _ _ _, foldl_writeCell_B _ _ _⟩
  · intro A Vbuf rank size n
    exact gjLoop_preserves_A rank size n n 0 _

theorem gjStep_false_iff (rank size n : ℕ) (st : GJState) (col : ℕ) :
    (gjStep rank size n st col).1 = false ↔
      |swapRows st.work col (findPivot st.work n col) col col| <
        singularEps := by
  simp only [gjStep]
  by_cases hc : |swapRows st.work col (findPivot st.work n col) col col| <
      singularEps
  · rw [if_pos hc]
    simp [hc]
  · rw [if_neg hc]
    simp [hc]

theorem gjStep_false_state (rank size n : ℕ) (st : GJState) (col : ℕ)
    (h : (gjStep rank size n st col).1 = false) :
    (gjStep rank size n st col).2 =
      ⟨st.A, swapRows st.work col (findPivot st.work n col),
       swapRows st.ainv col (findPivot st.work n col)⟩ := by
  have hc := (gjStep_false_iff rank size n st col).mp h
  simp only [gjStep]
  rw [if_pos hc]

theorem gjLoop_false_elim (rank size n : ℕ) :
    ∀ (fuel col : ℕ) (st : GJState),
      (gjLoop rank size n col fuel st).1 = false →
      ∃ j, col ≤ j ∧ j < col + fuel ∧
        ∃ st', gjLoop rank size n col (j - col) st = (true, st') ∧
          (gjStep rank size n st' j).1 = false ∧
          gjLoop rank size n col fuel st =
            (false, (gjStep rank size n st' j).2) := by
  intro fuel
  induction fuel with
  | zero =>
      intro col st h
      exact absurd h (by simp [gjLoop])
  | succ fuel ih =>
      intro col st h
      by_cases hstep : (gjStep rank size n st col).1
      · have heq : gjLoop rank size n col (fuel + 1) st =
            gjLoop rank size n (col + 1) fuel
              (gjStep rank size n st col).2 := by
          simp only [gjLoop]
          rw [if_pos hstep]
        rw [heq] at h
        obtain ⟨j, hj1, hj2, st', hrun, hfail, hres⟩ := ih (col + 1) _ h
        refine ⟨j, by omega, by omega, st', ?_, hfail, by rw [heq, hres]⟩
        have hjc : j - col = (j - (col + 1)) + 1 := by omega
        rw [hjc]
        simp only [gjLoop]
        rw [if_pos hstep]
        exact hrun
      · refine ⟨col, le_refl _, by omega, st, ?_,
          by simpa using hstep, ?_⟩
        · rw [Nat.sub_self]
          rfl
        · simp only [gjLoop]
          rw [if_neg hstep]

/-- C3 amended: when a pivot of magnitude below `1e-10` is met, the
inversion reports the condition (flag `false`) and returns early
without crashing, with `A` itself untouched; but the caller's
inverse-accumulator buffer is NOT discarded or reset — it retains the
partially-eliminated state reached so far (the accumulator of the
partial run, with the failing column's row swap already applied). -/
theorem matrix_inverse_mpi_singular (A Vbuf : Mat) (rank size n : ℕ)
    (h : (matrix_inverse_mpi A Vbuf rank size n).1 = false) :
    ∃ j st', j < n ∧
      gjLoop rank size n 0 j
        ⟨A, fun i k => A i k, initialize_identity Vbuf n⟩ = (true, st') ∧
      st'.A = A ∧
      |swapRows st'.work j (findPivot st'.work n j) j j| < singularEps ∧
      (matrix_inverse_mpi A Vbuf rank size n).2 =
        ⟨A, swapRows st'.work j (findPivot st'.work n j),
         swapRows st'.ainv j (findPivot st'.work n j)⟩ := by
  unfold matrix_inverse_mpi at h ⊢
  obtain ⟨j, hj1, hj2, st', hrun, hfail, hres⟩ :=
    gjLoop_false_elim rank size n n 0 _ h
  rw [Nat.sub_zero] at hrun
  have hA : st'.A = A := by
    have := gjLoop_preserves_A rank size n j 0
      ⟨A, fun i k => A i k, initialize_identity Vbuf n⟩
    rw [hrun] at this
    exact this
  refine ⟨j, st', by omega, hrun, hA,
    (gjStep_false_iff rank size n st' j).mp hfail, ?_⟩
  rw [hres, gjStep_false_state rank size n st' j hfail, hA]

/-- C3 amended witness: the singular matrix `[[1,2],[2,4]]` on one
process. -/
theorem matrix_inverse_mpi_singular_witness :
    (matrix_inverse_mpi (matOfLists [[1, 2], [2, 4]]) (fun _ _ => 7)
        0 1 2).1 = false ∧
    (∃ j st', j < 2 ∧
      gjLoop 0 1 2 0 j
        ⟨matOfLists [[1, 2], [2, 4]], fun i k => matOfLists [[1, 2], [2, 4]] i k,
         initialize_identity (fun _ _ => 7) 2⟩ = (true, st') ∧
      st'.A = matOfLists [[1, 2], [2, 4]] ∧
      |swapRows st'.work j (findPivot st'.work 2 j) j j| < singularEps ∧
      (matrix_inverse_mpi (matOfLists [[1, 2], [2, 4]]) (fun _ _ => 7)
          0 1 2).2 =
        ⟨matOfLists [[1, 2], [2, 4]],
         swapRows st'.work j (findPivot st'.work 2 j),
         swapRows st'.ainv j (findPivot st'.work 2 j)⟩) :=
  ⟨by with_unfolding_all decide,
   matrix_inverse_mpi_singular (matOfLists [[1, 2], [2, 4]]) (fun _ _ => 7)
     0 1 2 (by with_unfolding_all decide)⟩

/-- C3 counterexample: for the singular input `[[1,2],[2,4]]` on one
process, the inversion does report singularity (flag `false`) and
return early — but the caller's inverse-accumulator buffer is not
discarded: it comes back holding the partially-eliminated state
(`ainv[1][0] = 1`), not the pristine identity seed
(`identity[1][0] = 0`), so the caller does receive a
partially-eliminated accumulator. -/
theorem matrix_inverse_partial_ainv_retained :
    (matrix_inverse_mpi (matOfLists [[1, 2], [2, 4]]) (fun _ _ => 7)
        0 1 2).1 = false ∧
    ((matrix_inverse_mpi (matOfLists [[1, 2], [2, 4]]) (fun _ _ => 7)
        0 1 2).2).ainv 1 0 ≠
      initialize_identity (fun _ _ => 7) 2 1 0 := by
  constructor
  · with_unfolding_all decide
  · with_unfolding_all decide

/-- C5 amended witness: partition sizes at `n = 5`, `size = 3`. -/
theorem partition_sizes_witness :
    0 < 3 ∧
    ((∀ r, r < 3 - 1 → (rowPartition 5 3 r).card = rows_per_proc 5 3) ∧
     (rowPartition 5 3 (3 - 1)).card = rows_per_proc 5 3 + 5 % 3) :=
  ⟨by decide, partition_sizes 5 3 (by decide)⟩

/-! ### The all-gather synchronization of the inversion (claim C2) -/

theorem allgatherInPlace_owner (size n : ℕ) (hs : 0 < size)
    (hdvd : size ∣ n) (locals : ℕ → Mat) (r q i j : ℕ) (hq : q < size)
    (hi : i ∈ rowPartition n size q) :
    allgatherInPlace size (rows_per_proc n size) locals r i j =
      locals q i j := by
  have hn : size * rows_per_proc n size = n := Nat.mul_div_cancel' hdvd
  rw [mem_rowPartition] at hi
  have hilt : i < n := lt_of_lt_of_le hi.2 (end_row_le n size q hq)
  have hrpos : 0 < rows_per_proc n size := by
    rcases Nat.eq_zero_or_pos (rows_per_proc n size) with h0 | h
    · rw [h0, Nat.mul_zero] at hn
      omega
    · exact h
  have hend : end_row n size q = (q + 1) * rows_per_proc n size := by
    unfold end_row
    by_cases hql : q = size - 1
    · rw [if_pos hql]
      subst hql
      have hsz : size - 1 + 1 = size := by omega
      rw [hsz]
      exact hn.symm
    · rw [if_neg hql]
      unfold start_row
      ring
  have hstart : start_row n size q = q * rows_per_proc n size := rfl
  have hdiv : i / rows_per_proc n size = q := by
    apply Nat.div_eq_of_lt_le
    · rw [← hstart]
      exact hi.1
    · have := hi.2
      rw [hend] at this
      exact this
  unfold allgatherInPlace
  rw [if_pos (by rw [hn]; exact hilt), hdiv]

/-- C2 amended: the claim holds exactly in the evenly-divisible
configurations the benchmark uses.  If every rank enters a pivot-column
iteration with the same state `st` and `size` divides `n`, then after
the in-place all-gather every rank's working matrix and
inverse-accumulator agree, row by row, with the elimination performed
by the rank owning that row.  (When `size` does not divide `n` the
remainder rows are never exchanged — see the counterexample.) -/
theorem gj_allgather_owner_sync (size n : ℕ) (hs : 0 < size)
    (hdvd : size ∣ n) (st : GJState) (col : ℕ) (r q i j : ℕ)
    (hq : q < size) (hi : i ∈ rowPartition n size q) :
    allgatherInPlace size (rows_per_proc n size)
        (fun p => ((gjStep p size n st col).2).work) r i j =
      ((gjStep q size n st col).2).work i j ∧
    allgatherInPlace size (rows_per_proc n size)
        (fun p => ((gjStep p size n st col).2).ainv) r i j =
      ((gjStep q size n st col).2).ainv i j :=
  ⟨allgatherInPlace_owner size n hs hdvd _ r q i j hq hi,
   allgatherInPlace_owner size n hs hdvd _ r q i j hq hi⟩

/-- C2 amended witness: `n = 4`, `size = 2`; rank 0's post-gather
row 3 agrees with owner rank 1's elimination. -/
theorem gj_allgather_owner_sync_witness :
    0 < 2 ∧ (2 ∣ 4) ∧ (1 : ℕ) < 2 ∧ 3 ∈ rowPartition 4 2 1 ∧
    (allgatherInPlace 2 (rows_per_proc 4 2)
        (fun p => ((gjStep p 2 4 gjSt4 0).2).work) 0 3 0 =
      ((gjStep 1 2 4 gjSt4 0).2).work 3 0 ∧
     allgatherInPlace 2 (rows_per_proc 4 2)
        (fun p => ((gjStep p 2 4 gjSt4 0).2).ainv) 0 3 0 =
      ((gjStep 1 2 4 gjSt4 0).2).ainv 3 0) :=
  ⟨by decide, by decide, by decide, by decide,
   gj_allgather_owner_sync 2 4 (by decide) (by decide) gjSt4 0 0 1 3 0
     (by decide) (by decide)⟩

/-- C2 counterexample: with `n = 3`, `size = 2`, all ranks entering the
first iteration with the same state, the iteration is non-singular and
row 2 belongs to rank 1's partition, yet after the all-gather rank 0's
working-matrix entry `(2,0)` differs from the value rank 1 (the owner)
computed for it: the in-place all-gather exchanges only
`size * (n / size) = 2` rows, so the remainder row 2 is never
communicated and rank 0 keeps its stale, un-eliminated copy. -/
theorem allgather_remainder_row_stale :
    2 ∈ rowPartition 3 2 1 ∧
    (gjStep 1 2 3 gjSt3 0).1 = true ∧
    allgatherInPlace 2 (rows_per_proc 3 2)
        (fun p => ((gjStep p 2 3 gjSt3 0).2).work) 0 2 0 ≠
      ((gjStep 1 2 3 gjSt3 0).2).work 2 0 := by
  refine ⟨by decide, by with_unfolding_all decide,
    by with_unfolding_all decide⟩

/-! ### Bottleneck analyzer (claims C7, C8) -/

theorem foldl_add_nonneg (xs : List ℚ) :
    ∀ v : ℚ, 0 ≤ v → (∀ x ∈ xs, 0 ≤ x) →
      0 ≤ xs.foldl (fun a x => a + x) v := by
  induction xs with
  | nil => intro v hv _; exact hv
  | cons y ys ih =>
      intro v hv h
      rw [List.foldl_cons]
      exact ih _ (add_nonneg hv (h y (List.mem_cons_self _ _)))
        (fun x hx => h x (List.mem_cons_of_mem y hx))

theorem mpiReduceSum_nonneg (xs : List ℚ) (h : ∀ x ∈ xs, 0 ≤ x) :
    0 ≤ mpiReduceSum xs :=
  foldl_add_nonneg xs 0 le_rfl h

theorem analyze_overhead_value (size : ℕ) (comps comms : List ℚ) :
    fieldValue (analyze_communication size comps comms)
        MetricLabel.communicationOverhead =
      some (mpiReduceSum comms / (size : ℚ) /
        (mpiReduceSum comps / (size : ℚ) + mpiReduceSum comms / (size : ℚ)) *
        100) := by
  simp [analyze_communication, fieldValue]

/-- C7 amended: the communication-overhead metric written by
`analyze_communication` equals `avg_comm / (avg_comp + avg_comm) * 100`
with the averages obtained by sum-reduction divided by the process
count, exactly as the claim states; it lies in `[0, 100]` **provided**
every per-process computation and communication time is nonnegative and
the averaged total is positive.  The code does not clamp the derived
communication time, which the caller computes as a wall-clock difference
that can come out negative, and a negative input puts the metric
outside `[0, 100]` (see the counterexample). -/
theorem analyze_communication_overhead (size : ℕ) (comps comms : List ℚ)
    (hs : 0 < size) :
    fieldValue (analyze_communication size comps comms)
        MetricLabel.communicationOverhead =
      some (mpiReduceSum comms / (size : ℚ) /
        (mpiReduceSum comps / (size : ℚ) + mpiReduceSum comms / (size : ℚ)) *
        100) ∧
    ((∀ x ∈ comps, 0 ≤ x) → (∀ x ∈ comms, 0 ≤ x) →
      0 < mpiReduceSum comps / (size : ℚ) + mpiReduceSum comms / (size : ℚ) →
      0 ≤ mpiReduceSum comms / (size : ℚ) /
          (mpiReduceSum comps / (size : ℚ) +
            mpiReduceSum comms / (size : ℚ)) * 100 ∧
        mpiReduceSum comms / (size : ℚ) /
          (mpiReduceSum comps / (size : ℚ) +
            mpiReduceSum comms / (size : ℚ)) * 100 ≤ 100) := by
  refine ⟨analyze_overhead_value size comps comms, ?_⟩
  intro hcomp hcomm hpos
  have ha : 0 ≤ mpiReduceSum comps / (size : ℚ) :=
    div_nonneg (mpiReduceSum_nonneg comps hcomp) (Nat.cast_nonneg size)
  have hb : 0 ≤ mpiReduceSum comms / (size : ℚ) :=
    div_nonneg (mpiReduceSum_nonneg comms hcomm) (Nat.cast_nonneg size)
  constructor
  · exact mul_nonneg (div_nonneg hb (le_of_lt hpos)) (by norm_num)
  · have hle1 : mpiReduceSum comms / (size : ℚ) /
        (mpiReduceSum comps / (size : ℚ) +
          mpiReduceSum comms / (size : ℚ)) ≤ 1 :=
      (div_le_one hpos).mpr (le_add_of_nonneg_left ha)
    calc mpiReduceSum comms / (size : ℚ) /
          (mpiReduceSum comps / (size : ℚ) +
            mpiReduceSum comms / (size : ℚ)) * 100
        ≤ 1 * 100 := mul_le_mul_of_nonneg_right hle1 (by norm_num)
      _ = 100 := by norm_num

/-- C7 amended witness: two processes with computation times `[1, 1]`
and communication times `[1, 3]`; the metric is `200/3`, inside
`[0, 100]`. -/
theorem analyze_communication_overhead_witness :
    0 < 2 ∧
    (fieldValue (analyze_communication 2 [1, 1] [1, 3])
        MetricLabel.communicationOverhead =
      some (mpiReduceSum [1, 3] / (2 : ℚ) /
        (mpiReduceSum [1, 1] / (2 : ℚ) + mpiReduceSum [1, 3] / (2 : ℚ)) *
        100) ∧
    ((∀ x ∈ ([1, 1] : List ℚ), 0 ≤ x) → (∀ x ∈ ([1, 3] : List ℚ), 0 ≤ x) →
      0 < mpiReduceSum [1, 1] / (2 : ℚ) + mpiReduceSum [1, 3] / (2 : ℚ) →
      0 ≤ mpiReduceSum [1, 3] / (2 : ℚ) /
          (mpiReduceSum [1, 1] / (2 : ℚ) +
            mpiReduceSum [1, 3] / (2 : ℚ)) * 100 ∧
        mpiReduceSum [1, 3] / (2 : ℚ) /
          (mpiReduceSum [1, 1] / (2 : ℚ) +
            mpiReduceSum [1, 3] / (2 : ℚ)) * 100 ≤ 100)) :=
  ⟨by decide, analyze_communication_overhead 2 [1, 1] [1, 3] (by decide)⟩

/-- C7 counterexample: a run whose derived communication time is the
(unclamped, possibly negative) wall-clock difference the caller
computes; with computation time `4` and communication time `-1` on one
process the recorded overhead metric is `-100/3`, which does not lie in
`[0, 100]`. -/
theorem overhead_out_of_range :
    fieldValue (analyze_communication 1 [4] [-1])
        MetricLabel.communicationOverhead = some (-100 / 3) ∧
    ¬ (0 ≤ (-100 / 3 : ℚ)) := by
  constructor
  · with_unfolding_all decide
  · norm_num

/-- C8 counterexample: the bottleneck block written for a concrete run
(two processes, computation times `[1, 3]`, communication times
`[1, 1]`) consists of exactly four metric fields — process count,
average computation time, average communication time,
communication-overhead percentage — plus the separator; no fifth
metric (in particular no load-imbalance percentage, despite the
computation times being visibly imbalanced) is written. -/
theorem bottleneck_block_has_no_imbalance_field :
    analyze_communication 2 [1, 3] [1, 1] =
      [LogLine.field MetricLabel.processors 2,
       LogLine.field MetricLabel.avgComputationTime 2,
       LogLine.field MetricLabel.avgCommunicationTime 1,
       LogLine.field MetricLabel.communicationOverhead (100 / 3),
       LogLine.sep] ∧
    ((analyze_communication 2 [1, 3] [1, 1]).filter
        (fun l => isFieldLine l)).length = 4 := by
  constructor
  · with_unfolding_all decide
  · with_unfolding_all decide

/-- C8 amended: each call of `analyze_communication` appends exactly
one block to the report, and that block carries exactly four metrics —
process count, average computation time, average communication time and
the communication-overhead percentage — followed by a separator.  No
load-imbalance percentage (and no timestamp) is part of the record. -/
theorem analyze_log_block (log : List LogLine) (size : ℕ)
    (comps comms : List ℚ) :
    analyze_log log size comps comms =
      log ++
        [LogLine.field MetricLabel.processors (size : ℚ),
         LogLine.field MetricLabel.avgComputationTime
           (mpiReduceSum comps / (size : ℚ)),
         LogLine.field MetricLabel.avgCommunicationTime
           (mpiReduceSum comms / (size : ℚ)),
         LogLine.field MetricLabel.communicationOverhead
           (mpiReduceSum comms / (size : ℚ) /
             (mpiReduceSum comps / (size : ℚ) +
               mpiReduceSum comms / (size : ℚ)) * 100),
         LogLine.sep] ∧
    ((analyze_communication size comps comms).filter
        (fun l => isFieldLine l)).length = 4 :=
  ⟨rfl, rfl⟩

/-! ### Distributed save (claim C9) -/

theorem rowsFlat_length (f : ℕ → ℕ → ℚ) (n : ℕ) :
    ∀ (m s : ℕ),
      ((List.range' s m).flatMap
        (fun i => (List.range n).map (fun j => f i j))).length = m * n := by
  intro m
  induction m with
  | zero => intro s; simp
  | succ m ih =>
      intro s
      rw [List.range'_succ, List.flatMap_cons, List.length_append,
        List.length_map, List.length_range, ih (s + 1)]
      ring

theorem rowsFlat_get (f : ℕ → ℕ → ℚ) (n : ℕ) :
    ∀ (m s a b : ℕ), a < m → b < n →
      ((List.range' s m).flatMap
          (fun i => (List.range n).map (fun j => f i j))).get?
        (a * n + b) = some (f (s + a) b) := by
  intro m
  induction m with
  | zero => intro s a b ha _; exact absurd ha (Nat.not_lt_zero a)
  | succ m ih =>
      intro s a b ha hb
      rw [List.range'_succ, List.flatMap_cons]
      rcases Nat.eq_zero_or_pos a with rfl | hapos
      · rw [Nat.zero_mul, Nat.zero_add]
        rw [List.get?_append
          (by rw [List.length_map, List.length_range]; exact hb)]
        rw [List.get?_map, List.get?_range hb, Nat.add_zero]
        rfl
      · rw [List.get?_append_right
          (by rw [List.length_map, List.length_range]
              exact le_trans (Nat.le_mul_of_pos_left n hapos)
                (Nat.le_add_right _ b))]
        rw [List.length_map, List.length_range]
        have hidx : a * n + b - n = (a - 1) * n + b := by
          have h1 : a * n = (a - 1) * n + n := by
            obtain ⟨a', rfl⟩ : ∃ a', a = a' + 1 := ⟨a - 1, by omega⟩
            rw [Nat.add_sub_cancel]
            ring
          omega
        rw [hidx, ih (s + 1) (a - 1) b (by omega) hb]
        have harg : s + 1 + (a - 1) = s + a := by omega
        rw [harg]

/-- C9: `save_matrix_distributed` writes, to an artifact named by the
process's own rank, exactly the rows of that process's row partition
(the same `start_row`/`end_row` formulas the coordinator uses), in
ascending row order, each row as `n` consecutive values, and nothing
else: the artifact's length is exactly `(end - start) * n` and the
value at flat position `(i - start) * n + j` is `matrix[i][j]`. -/
theorem save_matrix_distributed_spec (matrix : Mat) (n rank size : ℕ) :
    (save_matrix_distributed matrix n rank size).1 = rank ∧
    (save_matrix_distributed matrix n rank size).2.length =
      (end_row n size rank - start_row n size rank) * n ∧
    (∀ i j, start_row n size rank ≤ i → i < end_row n size rank → j < n →
      (save_matrix_distributed matrix n rank size).2.get?
          ((i - start_row n size rank) * n + j) = some (matrix i j)) := by
  refine ⟨rfl, rowsFlat_length matrix n _ _, ?_⟩
  intro i j hi1 hi2 hj
  have hget := rowsFlat_get matrix n
    (end_row n size rank - start_row n size rank)
    (start_row n size rank) (i - start_row n size rank) j (by omega) hj
  have heq : start_row n size rank + (i - start_row n size rank) = i := by
    omega
  rw [heq] at hget
  exact hget

/-- C9 witness: `n = 3`, two processes, rank 1 (owning rows 1 and 2);
the artifact is named by rank 1 and position `(2 - 1) * 3 + 1` holds
`matrix[2][1]`. -/
theorem save_matrix_distributed_spec_witness :
    start_row 3 2 1 ≤ 2 ∧ 2 < end_row 3 2 1 ∧ 1 < 3 ∧
    (save_matrix_distributed mat3 3 1 2).2.get?
        ((2 - start_row 3 2 1) * 3 + 1) = some (mat3 2 1) :=
  ⟨by decide, by decide, by decide,
   (save_matrix_distributed_spec mat3 3 1 2).2.2 2 1 (by decide)
     (by decide) (by decide)⟩
